import Mathlib

/-!
Verification of the `profanity-filter` censoring engine
(`src/profanity_filter/profanity_filter.py`) against its natural-language
specification.

Shallow embedding conventions:
* Python strings are `List Char`; machine text offsets are `Nat`.
* The external collaborators (spaCy tokenizer, lemmatizer, dictionary files,
  Redis) are parameters of the configuration record `Cfg` or of the theorems.
* Fallible Python code (an unhandled exception such as the
  `UnboundLocalError` in `_censor_word_part`) is modelled with `Except Unit`.
* The unbounded `while` loop of `_censor_word` is modelled with explicit
  fuel; running out of fuel is the `Option.none` result, and the termination
  theorem shows fuel `len(word) + 1` (the spec's pass bound) is never
  exhausted.
-/

/-- Modelled from the spec: the analysis kinds of `types_.py` (the file is not
under `src/`).  Only deep (sub-span) analysis is consulted by the core engine,
so it is the single constructor we need. -/
inductive AnalysisType
  | deep
deriving DecidableEq, Repr

/-- Source line 61: `AVAILABLE_ANALYSES: AnalysesTypes = frozenset()` — the
empty set of available analyses. -/
def availableAnalyses : List AnalysisType := []

/-- Source lines 202-205 (`analyses.setter`): the effective analyses set is
`AVAILABLE_ANALYSES.intersection(value)`. -/
def analysesSetter (value : List AnalysisType) : List AnalysisType :=
  availableAnalyses.filter (fun a => value.contains a)

/-- Modelled from the spec: the `Word` record of `types_.py` (not under
`src/`), spec section 3: uncensored text, censored text, and the matched
profane root.  Equality is field-wise, as for a pydantic model. -/
structure Word where
  uncensored : List Char
  censored : List Char
  original_profane_word : Option (List Char) := none
deriving DecidableEq, Repr

/-- A substring span as produced by `more_itertools.substrings_indexes`:
the text together with its half-open character range. -/
structure Span where
  text : List Char
  start : Nat
  finish : Nat
deriving DecidableEq, Repr

/-- The mutable word caches of a `ProfanityFilter` instance (no Redis):
`_censored_words` is a dict keyed by uncensored text (modelled as an
association list where the most recent binding wins), and
`_words_with_no_profanity_inside` is a set of known-clean words. -/
structure St where
  censoredWords : List (List Char × Word)
  wordsWithNoProfanityInside : List (List Char)
deriving DecidableEq, Repr

/-- The configuration of a `ProfanityFilter` together with its external
collaborators, fixed for one censoring run:
* `censorChar`: the one-character censor string (`censor_char.setter`);
* `censorWholeWords`: the whole-word masking flag;
* `analyses`: the effective analyses set (always a subset of
  `availableAnalyses`);
* `isProfane`: membership in the resolved profane-word dictionary for the
  language in use (`_is_profane_word` with the dictionaries already resolved);
* `extraLemmas`: the normalization provider: the lemma/stem/normal forms of a
  word beyond its surface form (`_lemmas` always adds the surface form first);
* `isWordChar`: the tokenizer's classification of characters into word
  characters and separators (the spaCy model is external). -/
structure Cfg where
  censorChar : Char
  censorWholeWords : Bool
  analyses : List AnalysisType
  isProfane : List Char → Bool
  extraLemmas : List Char → List (List Char)
  isWordChar : Char → Bool

/-- Source lines 433-436, `_generate_fully_censored_word`: the censor
character repeated to the length of the word. -/
def generateFullyCensoredWord (cfg : Cfg) (w : List Char) : List Char :=
  List.replicate w.length cfg.censorChar

/-- The predicate of `_drop_fully_censored_words` (source lines 417-420):
every character of the word is the censor character. -/
def allCensorChars (cfg : Cfg) (w : List Char) : Bool :=
  w.all (fun ch => ch == cfg.censorChar)

/-- Source lines 479-490, `_lemmas`: an empty word has no lemmas; otherwise
the surface form is added first, followed by the spaCy lemma, the stems and
the morphological normal forms, which are all external and collected in
`Cfg.extraLemmas`. -/
def lemmasOf (cfg : Cfg) (w : List Char) : List (List Char) :=
  if w.isEmpty then [] else w :: cfg.extraLemmas w

/-- Source lines 504-507, `_has_no_profanity`: some candidate form occurs as
a substring (Python `in` on strings) of some known-clean word. -/
def hasNoProfanity (st : St) (ws : List (List Char)) : Bool :=
  ws.any fun w =>
    st.wordsWithNoProfanityInside.any fun clean => decide (List.IsInfix w clean)

/-- Source lines 525-527, `_get_censored_word` (no Redis): look the word up
in the `_censored_words` dict. -/
def getCensoredWord (st : St) (w : List Char) : Option Word :=
  (st.censoredWords.find? (fun e => e.1 == w)).map (fun e => e.2)

/-- Source lines 537-539, `_save_censored_word` (no Redis): store the word
keyed by its uncensored text; the newest binding shadows older ones. -/
def saveCensoredWord (st : St) (cw : Word) : St :=
  { st with censoredWords := (cw.uncensored, cw) :: st.censoredWords }

/-- Source lines 565-567, `_save_word_with_no_profanity_inside` (no Redis). -/
def saveWordWithNoProfanityInside (st : St) (w : List Char) : St :=
  { st with wordsWithNoProfanityInside := w :: st.wordsWithNoProfanityInside }

/-- The `for lemma in lemmas` search of `_censor_word_part` (source lines
556-562): the first normalized form that is in the resolved dictionary. -/
def findProfaneLemma (cfg : Cfg) : List (List Char) → Option (List Char)
  | [] => none
  | lm :: lms => if cfg.isProfane lm then some lm else findProfaneLemma cfg lms

/-- Source lines 492-496, `_is_dictionary_word`: with deep analysis
unavailable the spell checker is `DummyHunSpell`, whose `spell` returns the
word itself; `any` of that is the truthiness of the word, i.e. nonemptiness. -/
def isDictionaryWord (w : List Char) : Bool :=
  !w.isEmpty

/-- Source lines 546-563, `_censor_word_part`.
1. If some normalized form is a substring of a known-clean word, return the
   word uncensored with the no-profanity-inside flag.
2. If a cached censored word exists, return it.
3. Otherwise search the normalized forms for a dictionary hit.  On a hit with
   whole-word masking on, build, cache and return the fully censored word.
   With whole-word masking off the local variable `censored` was never
   assigned (the partial-masking branch is absent from the source), so the
   `Word(...)` construction raises `UnboundLocalError`: the `.error` case.
4. With no hit, return the word uncensored. -/
def censorWordPart (cfg : Cfg) (st : St) (w : List Char) :
    Except Unit (Word × Bool × St) :=
  let lemmas := lemmasOf cfg w
  if hasNoProfanity st lemmas then
    .ok ({ uncensored := w, censored := w, original_profane_word := none }, true, st)
  else
    match getCensoredWord st w with
    | some cw => .ok (cw, false, st)
    | none =>
      match findProfaneLemma cfg lemmas with
      | some lm =>
        if cfg.censorWholeWords then
          let cw : Word :=
            { uncensored := w
              censored := generateFullyCensoredWord cfg w
              original_profane_word := some lm }
          .ok (cw, false, saveCensoredWord st cw)
        else
          .error ()
      | none =>
        .ok ({ uncensored := w, censored := w, original_profane_word := none }, false, st)

/-- The descending length sequence `reversed(range(1, n + 1))` used by
`more_itertools.substrings_indexes(seq, reverse=True)`. -/
def lengthsDesc : Nat → List Nat
  | 0 => []
  | n + 1 => (n + 1) :: lengthsDesc n

/-- `more_itertools.substrings_indexes(s, reverse=True)` (external library,
used at source line 580): all contiguous substrings with their half-open
ranges, longest first. -/
def substringsIndexes (s : List Char) : List Span :=
  ((lengthsDesc s.length).map fun L =>
    (List.range (s.length - L + 1)).map fun i =>
      { text := (s.drop i).take L, start := i, finish := i + L }).flatten

/-- The guard of `_drop_substrings` (source line 426): a span is yielded when
for every recorded drop interval it starts before the interval's start or
finishes after the interval's finish. -/
def spanPasses (intervals : List (Nat × Nat)) (sp : Span) : Bool :=
  intervals.all fun di => decide (sp.start < di.1) || decide (di.2 < sp.finish)

/-- Source lines 429-431: a sent pair is recorded as a drop interval when both
components are present. -/
def addDrop : Option (Nat × Nat) → List (Nat × Nat) → List (Nat × Nat)
  | none, ivs => ivs
  | some d, ivs => d :: ivs

/-- Source lines 422-431, `_drop_substrings`, as a standalone enumeration:
`spans` is the input iterable, `sends` the successive values the consumer
sends back after each yielded span (the generator protocol), `intervals` the
drop intervals recorded so far.  The result is the list of yielded spans. -/
def dropSubstrings : List Span → List (Option (Nat × Nat)) → List (Nat × Nat) → List Span
  | [], _, _ => []
  | sp :: rest, sends, intervals =>
    if spanPasses intervals sp then
      sp :: dropSubstrings rest sends.tail (addDrop sends.headI intervals)
    else
      dropSubstrings rest sends intervals

/-- Python `str.replace(pat, rep)` with a nonempty pattern: replace every
non-overlapping occurrence, scanning left to right.  (The engine only ever
replaces a nonempty matched span, so Python's empty-pattern interleaving
behaviour is irrelevant and the empty pattern is mapped to the identity.) -/
def replaceAll : List Char → List Char → List Char → List Char
  | s, [], _ => s
  | [], _ :: _, _ => []
  | a :: as, p :: ps, rep =>
    if (p :: ps).isPrefixOf (a :: as) then
      rep ++ replaceAll (as.drop ps.length) (p :: ps) rep
    else
      a :: replaceAll as (p :: ps) rep
termination_by s _ _ => s.length
decreasing_by
  · simp only [List.length_drop, List.length_cons]
    omega
  · simp only [List.length_cons]
    omega

/-- The inner `while True` loop of `_censor_word` (source lines 590-614),
fused with the `_drop_substrings` generator it drives.  Arguments: the spans
not yet offered by the generator (already filtered by
`_drop_fully_censored_words`), the drop intervals recorded so far, the sticky
`no_profanity_start/finish` markers, the current censored word and the cache
state.  Each surviving span is censored via `_censor_word_part`; a no-profanity
result updates the markers; a changed censored part rewrites the current word
(whole-token mask, or literal replacement into the previous pass's text); the
loop breaks after the first candidate when deep analysis is disabled or when
the word just changed, and otherwise sends the markers back to the generator
and continues. -/
def innerLoop (cfg : Cfg) (orig : List Char) (prev : Word) :
    List Span → List (Nat × Nat) → Option (Nat × Nat) → Word → St →
    Except Unit (Word × St)
  | [], _, _, cur, st => .ok (cur, st)
  | sp :: rest, intervals, markers, cur, st =>
    if spanPasses intervals sp then
      match censorWordPart cfg st sp.text with
      | .error e => .error e
      | .ok (ccp, noProfanityInside, st') =>
        let markers' := if noProfanityInside then some (sp.start, sp.finish) else markers
        let cur' :=
          if ccp.censored ≠ sp.text then
            if cfg.censorWholeWords then
              { uncensored := orig
                censored := generateFullyCensoredWord cfg orig
                original_profane_word := ccp.original_profane_word }
            else
              { uncensored := orig
                censored := replaceAll prev.censored sp.text ccp.censored
                original_profane_word := ccp.original_profane_word }
          else cur
        if AnalysisType.deep ∈ cfg.analyses ∧ cur' = prev then
          innerLoop cfg orig prev rest (addDrop markers' intervals) markers' cur' st'
        else
          .ok (cur', st')
    else
      innerLoop cfg orig prev rest intervals markers cur st

/-- The outer `while censored_word != censored_word_prev` loop of
`_censor_word` (source lines 573-614), with explicit fuel counting the
executions of the loop body.  Each pass enumerates the substrings of the
previous pass's censored text, drops the fully censored ones, and runs the
inner loop; running out of fuel returns `none`. -/
def censorWordGo (cfg : Cfg) (orig : List Char) :
    Nat → Option Word → Word → St → Except Unit (Option (Word × St))
  | 0, prevOpt, cur, st =>
    if prevOpt = some cur then .ok (some (cur, st)) else .ok none
  | fuel + 1, prevOpt, cur, st =>
    if prevOpt = some cur then .ok (some (cur, st))
    else
      let spans := (substringsIndexes cur.censored).filter
        fun sp => !(allCensorChars cfg sp.text)
      match innerLoop cfg orig cur spans [] none cur st with
      | .error e => .error e
      | .ok (cur', st') => censorWordGo cfg orig fuel (some cur) cur' st'

/-- The epilogue of `_censor_word` (source lines 615-620): an unchanged word
is recorded as known-clean only under deep analysis when it is not a
dictionary word; a changed word is stored in the censored-word cache. -/
def censorWordPost (cfg : Cfg) (orig : List Char) (cur : Word) (st : St) : Word × St :=
  if cur.censored = orig then
    if AnalysisType.deep ∈ cfg.analyses ∧ isDictionaryWord orig = false then
      (cur, saveWordWithNoProfanityInside st orig)
    else (cur, st)
  else
    (cur, saveCensoredWord st cur)

/-- The fixpoint loop of `_censor_word` started on a fresh word, with fuel
`len(word) + 1` — the spec's pass bound, shown sufficient below. -/
def censorWordRun (cfg : Cfg) (st : St) (w : List Char) :
    Except Unit (Option (Word × St)) :=
  censorWordGo cfg w (w.length + 1) none
    { uncensored := w, censored := w, original_profane_word := none } st

/-- Source lines 571-620, `_censor_word` (also the public `censor_word`, the
spaCy token wrapper being the identity on text): run the fixpoint loop and
apply the epilogue. -/
def censorWord (cfg : Cfg) (st : St) (w : List Char) :
    Except Unit (Option (Word × St)) :=
  match censorWordRun cfg st w with
  | .ok (some (cur, st')) => .ok (some (censorWordPost cfg w cur st'))
  | .ok none => .ok none
  | .error e => .error e

/-- Modelled from the spec: the external tokenizer (spaCy; the repository's
`spacy_component.py` and `spacy_utlis.py` are not under `src/`) exposes the
maximal runs of word characters as tokens.  `chunksBy` splits a text into the
maximal runs of characters agreeing on `p`; word runs and separator runs
alternate and concatenate back to the text. -/
def chunksBy (p : Char → Bool) : List Char → List (List Char)
  | [] => []
  | a :: as =>
    match chunksBy p as with
    | [] => [[a]]
    | g :: gs => if p g.headI = p a then (a :: g) :: gs else [a] :: g :: gs

/-- Modelled from the spec: the per-token censoring drive of `_censor`
(source lines 657-670) together with the spaCy component (not under `src/`):
each word token is replaced in place by its censored form (replacement is
length-preserving, so offsets need no adjustment), separators are kept. -/
def censorChunks (cfg : Cfg) : List (List Char) → St → Except Unit (Option (List Char × St))
  | [], st => .ok (some ([], st))
  | g :: gs, st =>
    if cfg.isWordChar g.headI then
      match censorWord cfg st g with
      | .error e => .error e
      | .ok none => .ok none
      | .ok (some (res, st₁)) =>
        match censorChunks cfg gs st₁ with
        | .error e => .error e
        | .ok none => .ok none
        | .ok (some (rest, st₂)) => .ok (some (res.censored ++ rest, st₂))
    else
      match censorChunks cfg gs st with
      | .error e => .error e
      | .ok none => .ok none
      | .ok (some (rest, st₂)) => .ok (some (g ++ rest, st₂))

/-- The public `censor` (source lines 178-180 and 657-670): with a single
configured language `_split_by_language` returns one run covering the whole
text, which is tokenized and censored token by token. -/
def censorText (cfg : Cfg) (st : St) (s : List Char) :
    Except Unit (Option (List Char × St)) :=
  censorChunks cfg (chunksBy cfg.isWordChar s) st

/-- Dictionary lookup with the `defaultdict(OrderedSet)` default: a missing
language resolves to the empty word list. -/
def lookupDict (d : List (String × List String)) (k : String) : List String :=
  match d.find? (fun e => e.1 == k) with
  | some e => e.2
  | none => []

/-- Whether a language is a key of the dictionary mapping. -/
def hasKey (d : List (String × List String)) (k : String) : Bool :=
  (d.find? (fun e => e.1 == k)).isSome

/-- The `result[language] |= extra[language]` update (source line 328):
`OrderedSet` in-place union — existing entries keep their order and new words
are appended, skipping those already present; a missing key is created as for
a `defaultdict`.  (`OrderedSet` also deduplicates the appended words among
themselves; that is irrelevant to membership and not modelled.) -/
def dictSetUnion : List (String × List String) → String → List String →
    List (String × List String)
  | [], k, ws => [(k, ws)]
  | e :: d, k, ws =>
    if e.1 == k then (e.1, e.2 ++ ws.filter (fun w => !e.2.contains w)) :: d
    else e :: dictSetUnion d k ws

/-- Source lines 318-330, `profane_word_dictionaries`: if the custom
dictionaries mapping is truthy (has any key) it is used wholesale, otherwise
the file-loaded base dictionaries are; then, for every configured language
that is a key of the extra dictionaries, the extra words are unioned in. -/
def profaneWordDictionaries (languages : List String)
    (custom extra base : List (String × List String)) :
    List (String × List String) :=
  let result := if custom.isEmpty then base else custom
  (languages.filter fun l => hasKey extra l).foldl
    (fun res l => dictSetUnion res l (lookupDict extra l)) result

/-- Source lines 385-393, `_update_profane_word_dictionary_files`: collect the
languages whose profane-word file exists; raise `ProfanityFilterError` when
there is none. -/
def updateProfaneWordDictionaryFiles (languages : List String)
    (hasFile : String → Bool) : Except Unit (List String) :=
  let files := languages.filter hasFile
  if files.isEmpty then .error () else .ok files

/-- Source lines 403-409, `_load_profane_word_dictionaries`: re-check the
files, then read each language's word list (`fileWords` stands for the file
contents). -/
def loadProfaneWordDictionaries (languages : List String) (hasFile : String → Bool)
    (fileWords : String → List String) : Except Unit (List (String × List String)) :=
  match updateProfaneWordDictionaryFiles languages hasFile with
  | .error e => .error e
  | .ok files => .ok (files.map fun l => (l, fileWords l))

/-- Source lines 340-346, `clear_cache` (dictionary part):
`_update_profane_word_dictionary_files` runs first and unconditionally — its
error is raised regardless of the custom dictionaries — and the resolved
dictionaries are then recomputed, loading the base files only when the custom
mapping is empty. -/
def clearCache (languages : List String) (hasFile : String → Bool)
    (fileWords : String → List String)
    (custom extra : List (String × List String)) :
    Except Unit (List (String × List String)) :=
  match updateProfaneWordDictionaryFiles languages hasFile with
  | .error e => .error e
  | .ok _ =>
    if custom.isEmpty then
      match loadProfaneWordDictionaries languages hasFile fileWords with
      | .error e => .error e
      | .ok base => .ok (profaneWordDictionaries languages custom extra base)
    else
      .ok (profaneWordDictionaries languages custom extra [])

/-- The cache-shape invariant maintained by the engine: every cached censored
word is the full mask of its key (both save sites store fully censored words;
the partial-masking branch raises before saving). -/
def StOk (cfg : Cfg) (st : St) : Prop :=
  ∀ e ∈ st.censoredWords, e.2.censored = List.replicate e.1.length cfg.censorChar

/-- A word on which `_censor_word` is a fixed point: it comes back uncensored
and the caches are untouched. -/
def Stable (cfg : Cfg) (st : St) (w : List Char) : Prop :=
  censorWord cfg st w =
    .ok (some ({ uncensored := w, censored := w, original_profane_word := none }, st))

/-- A chunk is homogeneous when all its characters agree with its head on the
word-character classification. -/
def Homog (p : Char → Bool) (g : List Char) : Prop :=
  ∀ a ∈ g, p a = p g.headI

/-- Merge adjacent chunks that agree on the word-character classification;
used to describe how a censored text re-tokenizes. -/
def mergeChunks (p : Char → Bool) : List (List Char) → List (List Char)
  | [] => []
  | g :: gs =>
    match mergeChunks p gs with
    | [] => [g]
    | h :: hs => if p g.headI = p h.headI then (g ++ h) :: hs else g :: h :: hs

lemma go_fix (cfg : Cfg) (orig : List Char) (cur : Word) (st : St) (fuel : Nat) :
    censorWordGo cfg orig fuel (some cur) cur st = .ok (some (cur, st)) := by
  cases fuel with
  | zero => simp [censorWordGo]
  | succ f => simp [censorWordGo]

lemma ne_nil_of_allCensor_false {cfg : Cfg} {w : List Char}
    (h : allCensorChars cfg w = false) : w ≠ [] := by
  intro he
  subst he
  simp [allCensorChars] at h

lemma allCensor_replicate (cfg : Cfg) (n : Nat) :
    allCensorChars cfg (List.replicate n cfg.censorChar) = true := by
  simp [allCensorChars, List.all_eq_true]

lemma replicate_ne_self {cfg : Cfg} {w : List Char}
    (h : allCensorChars cfg w = false) :
    List.replicate w.length cfg.censorChar ≠ w := by
  intro he
  have hr := allCensor_replicate cfg w.length
  rw [he, h] at hr
  cases hr

lemma mem_substringsIndexes {sp : Span} {s : List Char}
    (h : sp ∈ substringsIndexes s) : List.Sublist sp.text s := by
  unfold substringsIndexes at h
  rw [List.mem_flatten] at h
  obtain ⟨l, hl, hsp⟩ := h
  rw [List.mem_map] at hl
  obtain ⟨L, _, rfl⟩ := hl
  rw [List.mem_map] at hsp
  obtain ⟨i, _, rfl⟩ := hsp
  exact (List.take_sublist ..).trans (List.drop_sublist ..)

lemma filteredSpans_nil (cfg : Cfg) {s : List Char} (h : allCensorChars cfg s = true) :
    (substringsIndexes s).filter (fun sp => !(allCensorChars cfg sp.text)) = [] := by
  rw [List.filter_eq_nil_iff]
  intro sp hsp
  have hsub := mem_substringsIndexes hsp
  have ht : allCensorChars cfg sp.text = true := by
    rw [allCensorChars, List.all_eq_true] at h ⊢
    intro a ha
    exact h a (hsub.subset ha)
  simp [ht]

lemma substringsIndexes_cons (a : Char) (as : List Char) :
    substringsIndexes (a :: as) =
      { text := a :: as, start := 0, finish := as.length + 1 } ::
        ((lengthsDesc as.length).map fun L =>
          (List.range (as.length + 1 - L + 1)).map fun i =>
            { text := ((a :: as).drop i).take L, start := i, finish := i + L }).flatten := by
  simp only [substringsIndexes, List.length_cons, lengthsDesc, List.map_cons,
    List.flatten_cons, Nat.sub_self, Nat.zero_add]
  rw [(by decide : List.range 1 = [0])]
  simp only [List.map_cons, List.map_nil, List.drop_zero, Nat.zero_add,
    List.take_succ_cons, List.take_length, List.cons_append, List.nil_append]

lemma substringsIndexes_head (s : List Char) (hs : s ≠ []) :
    ∃ t, substringsIndexes s = { text := s, start := 0, finish := s.length } :: t := by
  obtain ⟨a, as, rfl⟩ := List.exists_cons_of_ne_nil hs
  rw [List.length_cons]
  exact ⟨_, substringsIndexes_cons a as⟩

lemma filteredSpans_cons (cfg : Cfg) {s : List Char} (h : allCensorChars cfg s = false) :
    ∃ t, (substringsIndexes s).filter (fun sp => !(allCensorChars cfg sp.text)) =
      { text := s, start := 0, finish := s.length } :: t := by
  obtain ⟨t, ht⟩ := substringsIndexes_head s (ne_nil_of_allCensor_false h)
  exact ⟨t.filter (fun sp => !(allCensorChars cfg sp.text)),
    by rw [ht, List.filter_cons_of_pos (by simp [h])]⟩

lemma replaceAll_self (a : Char) (as rep : List Char) :
    replaceAll (a :: as) (a :: as) rep = rep := by
  rw [replaceAll, if_pos (List.isPrefixOf_iff_prefix.mpr (List.prefix_refl _)),
    List.drop_length, replaceAll, List.append_nil]

lemma part_fast {cfg : Cfg} {st : St} {w : List Char}
    (h : hasNoProfanity st (lemmasOf cfg w) = true) :
    censorWordPart cfg st w =
      .ok ({ uncensored := w, censored := w, original_profane_word := none }, true, st) := by
  simp [censorWordPart, h]

lemma part_cached {cfg : Cfg} {st : St} {w : List Char} {cw : Word}
    (h : hasNoProfanity st (lemmasOf cfg w) = false)
    (hc : getCensoredWord st w = some cw) :
    censorWordPart cfg st w = .ok (cw, false, st) := by
  simp [censorWordPart, h, hc]

lemma part_hit_whole {cfg : Cfg} {st : St} {w lm : List Char}
    (h : hasNoProfanity st (lemmasOf cfg w) = false)
    (hc : getCensoredWord st w = none)
    (hf : findProfaneLemma cfg (lemmasOf cfg w) = some lm)
    (hw : cfg.censorWholeWords = true) :
    censorWordPart cfg st w =
      .ok ({ uncensored := w, censored := generateFullyCensoredWord cfg w,
             original_profane_word := some lm }, false,
           saveCensoredWord st
             { uncensored := w, censored := generateFullyCensoredWord cfg w,
               original_profane_word := some lm }) := by
  simp [censorWordPart, h, hc, hf, hw]

lemma part_hit_noWhole {cfg : Cfg} {st : St} {w lm : List Char}
    (h : hasNoProfanity st (lemmasOf cfg w) = false)
    (hc : getCensoredWord st w = none)
    (hf : findProfaneLemma cfg (lemmasOf cfg w) = some lm)
    (hw : cfg.censorWholeWords = false) :
    censorWordPart cfg st w = .error () := by
  simp [censorWordPart, h, hc, hf, hw]

lemma part_no_hit {cfg : Cfg} {st : St} {w : List Char}
    (h : hasNoProfanity st (lemmasOf cfg w) = false)
    (hc : getCensoredWord st w = none)
    (hf : findProfaneLemma cfg (lemmasOf cfg w) = none) :
    censorWordPart cfg st w =
      .ok ({ uncensored := w, censored := w, original_profane_word := none }, false, st) := by
  simp [censorWordPart, h, hc, hf]

lemma innerLoop_step_ok {cfg : Cfg} {orig : List Char} {prev : Word} {sp : Span}
    {rest : List Span} {cur : Word} {st st₂ : St} {ccp : Word} {flag : Bool}
    (hdeep : AnalysisType.deep ∉ cfg.analyses)
    (hpart : censorWordPart cfg st sp.text = .ok (ccp, flag, st₂)) :
    innerLoop cfg orig prev (sp :: rest) [] none cur st =
      .ok ((if ccp.censored ≠ sp.text then
              (if cfg.censorWholeWords then
                { uncensored := orig, censored := generateFullyCensoredWord cfg orig,
                  original_profane_word := ccp.original_profane_word }
              else
                { uncensored := orig, censored := replaceAll prev.censored sp.text ccp.censored,
                  original_profane_word := ccp.original_profane_word })
            else cur), st₂) := by
  simp only [innerLoop, spanPasses, List.all_nil, if_true, hpart]
  rw [if_neg (fun hc => hdeep hc.1)]

lemma innerLoop_step_error {cfg : Cfg} {orig : List Char} {prev : Word} {sp : Span}
    {rest : List Span} {cur : Word} {st : St} {e : Unit}
    (hpart : censorWordPart cfg st sp.text = .error e) :
    innerLoop cfg orig prev (sp :: rest) [] none cur st = .error e := by
  simp only [innerLoop, spanPasses, List.all_nil, if_true, hpart]

lemma run_unchanged {cfg : Cfg} {st st₂ : St} {w : List Char} {ccp : Word} {flag : Bool}
    (hdeep : AnalysisType.deep ∉ cfg.analyses)
    (hac : allCensorChars cfg w = false)
    (hpart : censorWordPart cfg st w = .ok (ccp, flag, st₂))
    (heq : ccp.censored = w) :
    censorWordRun cfg st w =
      .ok (some ({ uncensored := w, censored := w, original_profane_word := none }, st₂)) := by
  obtain ⟨t, ht⟩ := filteredSpans_cons cfg hac
  unfold censorWordRun
  simp only [censorWordGo]
  rw [if_neg (by simp)]
  rw [ht]
  rw [innerLoop_step_ok hdeep
    (show censorWordPart cfg st (Span.mk w 0 w.length).text = .ok (ccp, flag, st₂) from hpart)]
  dsimp only
  rw [if_neg (fun hne => hne heq)]
  exact go_fix ..

lemma run_error {cfg : Cfg} {st : St} {w : List Char} {e : Unit}
    (hac : allCensorChars cfg w = false)
    (hpart : censorWordPart cfg st w = .error e) :
    censorWordRun cfg st w = .error e := by
  obtain ⟨t, ht⟩ := filteredSpans_cons cfg hac
  unfold censorWordRun
  simp only [censorWordGo]
  rw [if_neg (by simp)]
  rw [ht]
  rw [innerLoop_step_error
    (show censorWordPart cfg st (Span.mk w 0 w.length).text = .error e from hpart)]

lemma run_allCensor {cfg : Cfg} {st : St} {w : List Char}
    (hac : allCensorChars cfg w = true) :
    censorWordRun cfg st w =
      .ok (some ({ uncensored := w, censored := w, original_profane_word := none }, st)) := by
  unfold censorWordRun
  simp only [censorWordGo]
  rw [if_neg (by simp)]
  rw [filteredSpans_nil cfg hac]
  simp only [innerLoop]
  exact go_fix ..

lemma run_changed {cfg : Cfg} {st st₂ : St} {w : List Char} {ccp : Word} {flag : Bool}
    {cur₁ : Word}
    (hdeep : AnalysisType.deep ∉ cfg.analyses)
    (hac : allCensorChars cfg w = false)
    (hpart : censorWordPart cfg st w = .ok (ccp, flag, st₂))
    (hne : ccp.censored ≠ w)
    (hcur₁ : cur₁ = (if cfg.censorWholeWords then
        { uncensored := w, censored := generateFullyCensoredWord cfg w,
          original_profane_word := ccp.original_profane_word }
      else
        { uncensored := w, censored := replaceAll w w ccp.censored,
          original_profane_word := ccp.original_profane_word }))
    (hmask : allCensorChars cfg cur₁.censored = true) :
    censorWordRun cfg st w = .ok (some (cur₁, st₂)) := by
  obtain ⟨t, ht⟩ := filteredSpans_cons cfg hac
  obtain ⟨m, hm⟩ : ∃ m, w.length = m + 1 := by
    cases w with
    | nil => simp [allCensorChars] at hac
    | cons a as => exact ⟨as.length, rfl⟩
  have hcurne : ¬((some { uncensored := w, censored := w, original_profane_word := none }
      : Option Word) = some cur₁) := by
    intro hsome
    have heqw : ({ uncensored := w, censored := w, original_profane_word := none } : Word) = cur₁ := by
      injection hsome
    rw [← heqw] at hmask
    rw [hmask] at hac
    cases hac
  unfold censorWordRun
  simp only [censorWordGo]
  rw [if_neg (by simp)]
  rw [ht]
  rw [innerLoop_step_ok hdeep
    (show censorWordPart cfg st (Span.mk w 0 w.length).text = .ok (ccp, flag, st₂) from hpart)]
  rw [if_pos (show ¬(ccp.censored = (Span.mk w 0 w.length).text) from hne)]
  dsimp only
  rw [← hcur₁]
  rw [hm]
  simp only [censorWordGo]
  rw [if_neg hcurne]
  rw [filteredSpans_nil cfg hmask]
  simp only [innerLoop]
  exact go_fix ..

lemma replaceAll_eq_of_self {w : List Char} (rep : List Char) (hw : w ≠ []) :
    replaceAll w w rep = rep := by
  obtain ⟨a, as, rfl⟩ := List.exists_cons_of_ne_nil hw
  exact replaceAll_self a as rep

lemma getCensoredWord_some {st : St} {w : List Char} {cw : Word}
    (h : getCensoredWord st w = some cw) :
    ∃ e ∈ st.censoredWords, e.1 = w ∧ e.2 = cw := by
  unfold getCensoredWord at h
  cases hf : st.censoredWords.find? (fun e => e.1 == w) with
  | none => rw [hf] at h; cases h
  | some e =>
    rw [hf] at h
    have hp : (e.1 == w) = true := by simpa using List.find?_some hf
    refine ⟨e, List.mem_of_find?_eq_some hf, eq_of_beq hp, ?_⟩
    simpa using h

lemma stok_censored {cfg : Cfg} {st : St} {w : List Char} {cw : Word}
    (hok : StOk cfg st) (h : getCensoredWord st w = some cw) :
    cw.censored = List.replicate w.length cfg.censorChar := by
  obtain ⟨e, he, h1, h2⟩ := getCensoredWord_some h
  rw [← h2, ← h1]
  exact hok e he

lemma cw_allCensor {cfg : Cfg} {st : St} {w : List Char}
    (hdeep : AnalysisType.deep ∉ cfg.analyses)
    (hac : allCensorChars cfg w = true) :
    censorWord cfg st w =
      .ok (some ({ uncensored := w, censored := w, original_profane_word := none }, st)) := by
  unfold censorWord
  rw [run_allCensor hac]
  unfold censorWordPost
  dsimp only
  rw [if_pos rfl, if_neg (fun hc => hdeep hc.1)]

lemma cw_unchanged {cfg : Cfg} {st st₂ : St} {w : List Char} {ccp : Word} {flag : Bool}
    (hdeep : AnalysisType.deep ∉ cfg.analyses)
    (hac : allCensorChars cfg w = false)
    (hpart : censorWordPart cfg st w = .ok (ccp, flag, st₂))
    (heq : ccp.censored = w) :
    censorWord cfg st w =
      .ok (some ({ uncensored := w, censored := w, original_profane_word := none }, st₂)) := by
  unfold censorWord
  rw [run_unchanged hdeep hac hpart heq]
  unfold censorWordPost
  dsimp only
  rw [if_pos rfl, if_neg (fun hc => hdeep hc.1)]

lemma cw_error {cfg : Cfg} {st : St} {w : List Char} {e : Unit}
    (hac : allCensorChars cfg w = false)
    (hpart : censorWordPart cfg st w = .error e) :
    censorWord cfg st w = .error e := by
  unfold censorWord
  rw [run_error hac hpart]

lemma cw_changed_whole {cfg : Cfg} {st st₂ : St} {w : List Char} {ccp : Word} {flag : Bool}
    (hdeep : AnalysisType.deep ∉ cfg.analyses)
    (hwhole : cfg.censorWholeWords = true)
    (hac : allCensorChars cfg w = false)
    (hpart : censorWordPart cfg st w = .ok (ccp, flag, st₂))
    (hne : ccp.censored ≠ w) :
    censorWord cfg st w =
      .ok (some ({ uncensored := w, censored := generateFullyCensoredWord cfg w,
                   original_profane_word := ccp.original_profane_word },
        saveCensoredWord st₂
          { uncensored := w, censored := generateFullyCensoredWord cfg w,
            original_profane_word := ccp.original_profane_word })) := by
  have hrc := @run_changed cfg st st₂ w ccp flag
      { uncensored := w, censored := generateFullyCensoredWord cfg w,
        original_profane_word := ccp.original_profane_word }
    hdeep hac hpart hne (by rw [if_pos hwhole]) (allCensor_replicate cfg w.length)
  unfold censorWord
  rw [hrc]
  unfold censorWordPost
  dsimp only
  rw [if_neg (show ¬(generateFullyCensoredWord cfg w = w) from replicate_ne_self hac)]

lemma cw_changed_noWhole {cfg : Cfg} {st st₂ : St} {w : List Char} {ccp : Word} {flag : Bool}
    (hdeep : AnalysisType.deep ∉ cfg.analyses)
    (hwhole : cfg.censorWholeWords = false)
    (hac : allCensorChars cfg w = false)
    (hpart : censorWordPart cfg st w = .ok (ccp, flag, st₂))
    (hrep : ccp.censored = List.replicate w.length cfg.censorChar) :
    censorWord cfg st w =
      .ok (some ({ uncensored := w, censored := generateFullyCensoredWord cfg w,
                   original_profane_word := ccp.original_profane_word },
        saveCensoredWord st₂
          { uncensored := w, censored := generateFullyCensoredWord cfg w,
            original_profane_word := ccp.original_profane_word })) := by
  have hne : ccp.censored ≠ w := by
    rw [hrep]
    exact replicate_ne_self hac
  have hrc := @run_changed cfg st st₂ w ccp flag
      { uncensored := w, censored := generateFullyCensoredWord cfg w,
        original_profane_word := ccp.original_profane_word }
    hdeep hac hpart hne
    (by
      rw [if_neg (by rw [hwhole]; exact Bool.false_ne_true)]
      rw [replaceAll_eq_of_self ccp.censored (ne_nil_of_allCensor_false hac), hrep]
      rfl)
    (allCensor_replicate cfg w.length)
  unfold censorWord
  rw [hrc]
  unfold censorWordPost
  dsimp only
  rw [if_neg (show ¬(generateFullyCensoredWord cfg w = w) from replicate_ne_self hac)]

lemma cw_fast {cfg : Cfg} {st : St} {w : List Char}
    (hdeep : AnalysisType.deep ∉ cfg.analyses)
    (hac : allCensorChars cfg w = false)
    (hfast : hasNoProfanity st (lemmasOf cfg w) = true) :
    censorWord cfg st w =
      .ok (some ({ uncensored := w, censored := w, original_profane_word := none }, st)) :=
  cw_unchanged hdeep hac (part_fast hfast) rfl

lemma cw_no_hit {cfg : Cfg} {st : St} {w : List Char}
    (hdeep : AnalysisType.deep ∉ cfg.analyses)
    (hac : allCensorChars cfg w = false)
    (hfast : hasNoProfanity st (lemmasOf cfg w) = false)
    (hcache : getCensoredWord st w = none)
    (hfind : findProfaneLemma cfg (lemmasOf cfg w) = none) :
    censorWord cfg st w =
      .ok (some ({ uncensored := w, censored := w, original_profane_word := none }, st)) :=
  cw_unchanged hdeep hac (part_no_hit hfast hcache hfind) rfl

lemma cw_cached {cfg : Cfg} {st : St} {w : List Char} {cw : Word}
    (hdeep : AnalysisType.deep ∉ cfg.analyses)
    (hok : StOk cfg st)
    (hac : allCensorChars cfg w = false)
    (hfast : hasNoProfanity st (lemmasOf cfg w) = false)
    (hcache : getCensoredWord st w = some cw) :
    censorWord cfg st w =
      .ok (some ({ uncensored := w, censored := generateFullyCensoredWord cfg w,
                   original_profane_word := cw.original_profane_word },
        saveCensoredWord st
          { uncensored := w, censored := generateFullyCensoredWord cfg w,
            original_profane_word := cw.original_profane_word })) := by
  have hrep : cw.censored = List.replicate w.length cfg.censorChar := stok_censored hok hcache
  have hpart := part_cached hfast hcache
  cases hw : cfg.censorWholeWords with
  | true =>
    exact cw_changed_whole hdeep hw hac hpart (by rw [hrep]; exact replicate_ne_self hac)
  | false =>
    exact cw_changed_noWhole hdeep hw hac hpart hrep

lemma cw_hit_whole {cfg : Cfg} {st : St} {w lm : List Char}
    (hdeep : AnalysisType.deep ∉ cfg.analyses)
    (hwhole : cfg.censorWholeWords = true)
    (hac : allCensorChars cfg w = false)
    (hfast : hasNoProfanity st (lemmasOf cfg w) = false)
    (hcache : getCensoredWord st w = none)
    (hfind : findProfaneLemma cfg (lemmasOf cfg w) = some lm) :
    censorWord cfg st w =
      .ok (some ({ uncensored := w, censored := generateFullyCensoredWord cfg w,
                   original_profane_word := some lm },
        saveCensoredWord
          (saveCensoredWord st
            { uncensored := w, censored := generateFullyCensoredWord cfg w,
              original_profane_word := some lm })
          { uncensored := w, censored := generateFullyCensoredWord cfg w,
            original_profane_word := some lm })) := by
  have hpart := part_hit_whole hfast hcache hfind hwhole
  exact cw_changed_whole hdeep hwhole hac hpart (replicate_ne_self hac)

lemma cw_hit_noWhole {cfg : Cfg} {st : St} {w lm : List Char}
    (hwhole : cfg.censorWholeWords = false)
    (hac : allCensorChars cfg w = false)
    (hfast : hasNoProfanity st (lemmasOf cfg w) = false)
    (hcache : getCensoredWord st w = none)
    (hfind : findProfaneLemma cfg (lemmasOf cfg w) = some lm) :
    censorWord cfg st w = .error () :=
  cw_error hac (part_hit_noWhole hfast hcache hfind hwhole)

lemma cw_cases {cfg : Cfg} {st : St} {w : List Char} {res : Word} {st' : St}
    (hdeep : AnalysisType.deep ∉ cfg.analyses)
    (hok : StOk cfg st)
    (h : censorWord cfg st w = .ok (some (res, st'))) :
    (res = { uncensored := w, censored := w, original_profane_word := none } ∧ st' = st) ∨
    (res.uncensored = w ∧ res.censored = generateFullyCensoredWord cfg w ∧
     allCensorChars cfg w = false ∧
     (st' = saveCensoredWord st res ∨
      st' = saveCensoredWord (saveCensoredWord st res) res)) := by
  by_cases hac : allCensorChars cfg w = true
  · left
    have hv := @cw_allCensor cfg st w hdeep hac
    rw [h] at hv
    simp only [Except.ok.injEq, Option.some.injEq, Prod.mk.injEq] at hv
    exact ⟨hv.1, hv.2⟩
  · rw [Bool.not_eq_true] at hac
    by_cases hfast : hasNoProfanity st (lemmasOf cfg w) = true
    · left
      have hv := cw_fast hdeep hac hfast
      rw [h] at hv
      simp only [Except.ok.injEq, Option.some.injEq, Prod.mk.injEq] at hv
      exact ⟨hv.1, hv.2⟩
    · rw [Bool.not_eq_true] at hfast
      cases hcache : getCensoredWord st w with
      | some cw =>
        right
        have hv := cw_cached hdeep hok hac hfast hcache
        rw [h] at hv
        simp only [Except.ok.injEq, Option.some.injEq, Prod.mk.injEq] at hv
        obtain ⟨hres, hst⟩ := hv
        subst hres
        exact ⟨rfl, rfl, hac, Or.inl hst⟩
      | none =>
        cases hfind : findProfaneLemma cfg (lemmasOf cfg w) with
        | none =>
          left
          have hv := cw_no_hit hdeep hac hfast hcache hfind
          rw [h] at hv
          simp only [Except.ok.injEq, Option.some.injEq, Prod.mk.injEq] at hv
          exact ⟨hv.1, hv.2⟩
        | some lm =>
          cases hw : cfg.censorWholeWords with
          | false =>
            exfalso
            have hv := cw_hit_noWhole hw hac hfast hcache hfind
            rw [h] at hv
            cases hv
          | true =>
            right
            have hv := cw_hit_whole hdeep hw hac hfast hcache hfind
            rw [h] at hv
            simp only [Except.ok.injEq, Option.some.injEq, Prod.mk.injEq] at hv
            obtain ⟨hres, hst⟩ := hv
            subst hres
            exact ⟨rfl, rfl, hac, Or.inr hst⟩

lemma stable_iff {cfg : Cfg} {st : St} {w : List Char}
    (hdeep : AnalysisType.deep ∉ cfg.analyses)
    (hok : StOk cfg st) :
    Stable cfg st w ↔
      (allCensorChars cfg w = true ∨ hasNoProfanity st (lemmasOf cfg w) = true ∨
       (getCensoredWord st w = none ∧ findProfaneLemma cfg (lemmasOf cfg w) = none)) := by
  constructor
  · intro hs
    rw [Stable] at hs
    by_cases hac : allCensorChars cfg w = true
    · exact Or.inl hac
    rw [Bool.not_eq_true] at hac
    by_cases hfast : hasNoProfanity st (lemmasOf cfg w) = true
    · exact Or.inr (Or.inl hfast)
    rw [Bool.not_eq_true] at hfast
    cases hcache : getCensoredWord st w with
    | some cw =>
      exfalso
      have hv := cw_cached hdeep hok hac hfast hcache
      rw [hs] at hv
      simp only [Except.ok.injEq, Option.some.injEq, Prod.mk.injEq, Word.mk.injEq] at hv
      exact replicate_ne_self hac hv.1.2.1.symm
    | none =>
      cases hfind : findProfaneLemma cfg (lemmasOf cfg w) with
      | none => exact Or.inr (Or.inr ⟨rfl, rfl⟩)
      | some lm =>
        exfalso
        cases hw : cfg.censorWholeWords with
        | true =>
          have hv := cw_hit_whole hdeep hw hac hfast hcache hfind
          rw [hs] at hv
          simp only [Except.ok.injEq, Option.some.injEq, Prod.mk.injEq, Word.mk.injEq] at hv
          exact replicate_ne_self hac hv.1.2.1.symm
        | false =>
          have hv := cw_hit_noWhole hw hac hfast hcache hfind
          rw [hs] at hv
          cases hv
  · intro hcase
    by_cases hac : allCensorChars cfg w = true
    · exact cw_allCensor hdeep hac
    rw [Bool.not_eq_true] at hac
    by_cases hfast : hasNoProfanity st (lemmasOf cfg w) = true
    · exact cw_fast hdeep hac hfast
    rw [Bool.not_eq_true] at hfast
    rcases hcase with hac' | hfast' | ⟨hcache, hfind⟩
    · rw [hac'] at hac; cases hac
    · rw [hfast'] at hfast; cases hfast
    · exact cw_no_hit hdeep hac hfast hcache hfind

lemma getCensoredWord_save_ne {st : St} {m : Word} {u : List Char}
    (hne : m.uncensored ≠ u) :
    getCensoredWord (saveCensoredWord st m) u = getCensoredWord st u := by
  unfold getCensoredWord saveCensoredWord
  rw [List.find?_cons_of_neg _ (by simpa using hne)]

lemma stok_save {cfg : Cfg} {st : St} {res : Word}
    (hok : StOk cfg st)
    (hres : res.censored = List.replicate res.uncensored.length cfg.censorChar) :
    StOk cfg (saveCensoredWord st res) := by
  intro e he
  rcases List.mem_cons.mp he with rfl | he'
  · exact hres
  · exact hok e he'

lemma headI_append {g : List Char} (t : List Char) (hg : g ≠ []) :
    (g ++ t).headI = g.headI := by
  cases g with
  | nil => exact absurd rfl hg
  | cons a as => rfl

lemma chunksBy_cons_eq (p : Char → Bool) (a : Char) (as : List Char) :
    chunksBy p (a :: as) =
      match chunksBy p as with
      | [] => [[a]]
      | g :: gs => if p g.headI = p a then (a :: g) :: gs else [a] :: g :: gs := rfl

lemma chunksBy_flatten (p : Char → Bool) : ∀ l : List Char, (chunksBy p l).flatten = l := by
  intro l
  induction l with
  | nil => rfl
  | cons a as ih =>
    cases hc : chunksBy p as with
    | nil =>
      rw [hc, List.flatten_nil] at ih
      simp only [chunksBy_cons_eq, hc, List.flatten_cons, List.flatten_nil, List.append_nil]
      rw [← ih]
    | cons g gs =>
      rw [hc, List.flatten_cons] at ih
      simp only [chunksBy_cons_eq, hc]
      by_cases hpg : p g.headI = p a
      · rw [if_pos hpg, List.flatten_cons, List.cons_append, ih]
      · rw [if_neg hpg, List.flatten_cons, List.flatten_cons]
        rw [List.singleton_append, ih]

lemma chunksBy_ne_nil (p : Char → Bool) : ∀ l : List Char, ∀ g ∈ chunksBy p l, g ≠ [] := by
  intro l
  induction l with
  | nil => intro g hg; cases hg
  | cons a as ih =>
    intro g hg
    cases hc : chunksBy p as with
    | nil =>
      simp only [chunksBy_cons_eq, hc] at hg
      rcases List.mem_singleton.mp hg with rfl
      exact List.cons_ne_nil a []
    | cons g' gs =>
      simp only [chunksBy_cons_eq, hc] at hg
      by_cases hpg : p g'.headI = p a
      · rw [if_pos hpg] at hg
        rcases List.mem_cons.mp hg with rfl | hg'
        · exact List.cons_ne_nil _ _
        · exact ih g (hc ▸ List.mem_cons_of_mem _ hg')
      · rw [if_neg hpg] at hg
        rcases List.mem_cons.mp hg with rfl | hg'
        · exact List.cons_ne_nil _ _
        · exact ih g (hc ▸ hg')

lemma chunksBy_homog (p : Char → Bool) : ∀ l : List Char, ∀ g ∈ chunksBy p l, Homog p g := by
  intro l
  induction l with
  | nil => intro g hg; cases hg
  | cons a as ih =>
    intro g hg
    cases hc : chunksBy p as with
    | nil =>
      simp only [chunksBy_cons_eq, hc] at hg
      rcases List.mem_singleton.mp hg with rfl
      intro x hx
      rcases List.mem_singleton.mp hx with rfl
      rfl
    | cons g' gs =>
      simp only [chunksBy_cons_eq, hc] at hg
      by_cases hpg : p g'.headI = p a
      · rw [if_pos hpg] at hg
        rcases List.mem_cons.mp hg with rfl | hg'
        · intro x hx
          rcases List.mem_cons.mp hx with rfl | hx'
          · rfl
          · have hx2 := ih g' (hc ▸ List.mem_cons_self ..) x hx'
            rw [hx2, hpg]
            rfl
        · exact ih g (hc ▸ List.mem_cons_of_mem _ hg')
      · rw [if_neg hpg] at hg
        rcases List.mem_cons.mp hg with rfl | hg'
        · intro x hx
          rcases List.mem_singleton.mp hx with rfl
          rfl
        · exact ih g (hc ▸ hg')

lemma chunksBy_chain (p : Char → Bool) :
    ∀ l : List Char, List.Chain' (fun g h => p g.headI ≠ p h.headI) (chunksBy p l) := by
  intro l
  induction l with
  | nil => exact List.chain'_nil
  | cons a as ih =>
    cases hc : chunksBy p as with
    | nil =>
      simp only [chunksBy_cons_eq, hc]
      exact List.chain'_singleton _
    | cons g gs =>
      rw [hc] at ih
      simp only [chunksBy_cons_eq, hc]
      by_cases hpg : p g.headI = p a
      · rw [if_pos hpg]
        rcases List.chain'_cons'.mp ih with ⟨hrel, hgs⟩
        refine List.chain'_cons'.mpr ⟨?_, hgs⟩
        intro b hb
        have hr := hrel b hb
        rw [show ((a :: g).headI : Char) = a from rfl, ← hpg]
        exact hr
      · rw [if_neg hpg]
        refine List.chain'_cons.mpr ⟨?_, ih⟩
        rw [show (([a] : List Char).headI : Char) = a from rfl]
        exact fun he => hpg he.symm

lemma clean_eq_of_step {cfg : Cfg} {st : St} {w : List Char} {res : Word} {st' : St}
    (hdeep : AnalysisType.deep ∉ cfg.analyses)
    (hok : StOk cfg st)
    (h : censorWord cfg st w = .ok (some (res, st'))) :
    st'.wordsWithNoProfanityInside = st.wordsWithNoProfanityInside := by
  rcases cw_cases hdeep hok h with ⟨_, rfl⟩ | ⟨_, _, _, hsave⟩
  · rfl
  · rcases hsave with rfl | rfl <;> rfl

lemma stok_of_step {cfg : Cfg} {st : St} {w : List Char} {res : Word} {st' : St}
    (hdeep : AnalysisType.deep ∉ cfg.analyses)
    (hok : StOk cfg st)
    (h : censorWord cfg st w = .ok (some (res, st'))) :
    StOk cfg st' := by
  rcases cw_cases hdeep hok h with ⟨_, rfl⟩ | ⟨hunc, hcen, _, hsave⟩
  · exact hok
  · have hres : res.censored = List.replicate res.uncensored.length cfg.censorChar := by
      rw [hcen, hunc]
      rfl
    rcases hsave with rfl | rfl
    · exact stok_save hok hres
    · exact stok_save (stok_save hok hres) hres

lemma censored_shape_of_step {cfg : Cfg} {st : St} {w : List Char} {res : Word} {st' : St}
    (hdeep : AnalysisType.deep ∉ cfg.analyses)
    (hok : StOk cfg st)
    (h : censorWord cfg st w = .ok (some (res, st'))) :
    res.censored = w ∨ res.censored = List.replicate w.length cfg.censorChar := by
  rcases cw_cases hdeep hok h with ⟨rfl, _⟩ | ⟨_, hcen, _, _⟩
  · exact Or.inl rfl
  · exact Or.inr hcen

lemma stable_step {cfg : Cfg} {st : St} {g : List Char} {res : Word} {st' : St} {u : List Char}
    (hdeep : AnalysisType.deep ∉ cfg.analyses)
    (hok : StOk cfg st)
    (hstep : censorWord cfg st g = .ok (some (res, st')))
    (hu : Stable cfg st u) : Stable cfg st' u := by
  have hok' := stok_of_step hdeep hok hstep
  rcases cw_cases hdeep hok hstep with ⟨_, rfl⟩ | ⟨hunc, hcen, hacg, hsave⟩
  · exact hu
  · have hne : u ≠ g := by
      intro hug
      subst hug
      rw [Stable] at hu
      rw [hu] at hstep
      simp only [Except.ok.injEq, Option.some.injEq, Prod.mk.injEq] at hstep
      obtain ⟨hres, _⟩ := hstep
      have hcu : generateFullyCensoredWord cfg u = u := by
        rw [← hcen, ← hres]
      exact replicate_ne_self hacg hcu
    have hkey : res.uncensored ≠ u := fun he => hne (by rw [← hunc, he])
    have hclean : st'.wordsWithNoProfanityInside = st.wordsWithNoProfanityInside := by
      rcases hsave with rfl | rfl <;> rfl
    have hlook : getCensoredWord st' u = getCensoredWord st u := by
      rcases hsave with rfl | rfl
      · exact getCensoredWord_save_ne hkey
      · rw [getCensoredWord_save_ne hkey, getCensoredWord_save_ne hkey]
    rw [stable_iff hdeep hok'] at *
    rw [stable_iff hdeep hok] at hu
    have hprof : hasNoProfanity st' (lemmasOf cfg u) = hasNoProfanity st (lemmasOf cfg u) := by
      unfold hasNoProfanity
      rw [hclean]
    rw [hprof, hlook]
    exact hu

lemma chunksBy_prepend (p : Char → Bool) :
    ∀ (g : List Char) (t : List Char) (b : Bool), g ≠ [] → (∀ a ∈ g, p a = b) →
    (∀ h hs, chunksBy p t = h :: hs → p h.headI ≠ b) →
    chunksBy p (g ++ t) = g :: chunksBy p t := by
  intro g
  induction g with
  | nil => intro t b hne; exact absurd rfl hne
  | cons a g' ih =>
    intro t b hne hhom hhead
    cases g' with
    | nil =>
      rw [List.singleton_append]
      cases hc : chunksBy p t with
      | nil => simp only [chunksBy_cons_eq, hc]
      | cons h hs =>
        simp only [chunksBy_cons_eq, hc]
        rw [if_neg (by
          rw [hhom a (List.mem_singleton_self a)]
          exact hhead h hs hc)]
    | cons a2 g'' =>
      have hg' := ih t b (List.cons_ne_nil _ _)
        (fun x hx => hhom x (List.mem_cons_of_mem _ hx)) hhead
      rw [List.cons_append]
      simp only [chunksBy_cons_eq, hg']
      rw [if_pos (by
        rw [show ((a2 :: g'' : List Char).headI : Char) = a2 from rfl]
        rw [hhom a2 (List.mem_cons_of_mem _ (List.mem_cons_self ..)),
          hhom a (List.mem_cons_self ..)])]

lemma chunksBy_unique (p : Char → Bool) :
    ∀ cs : List (List Char),
    (∀ g ∈ cs, g ≠ []) → (∀ g ∈ cs, Homog p g) →
    List.Chain' (fun g h => p g.headI ≠ p h.headI) cs →
    chunksBy p cs.flatten = cs := by
  intro cs
  induction cs with
  | nil => intro _ _ _; rfl
  | cons g gs ih =>
    intro hne hhom hch
    rw [List.flatten_cons]
    have hgs := ih (fun x hx => hne x (List.mem_cons_of_mem _ hx))
      (fun x hx => hhom x (List.mem_cons_of_mem _ hx)) hch.tail
    rw [chunksBy_prepend p g gs.flatten (p g.headI) (hne g (List.mem_cons_self ..))
      (hhom g (List.mem_cons_self ..)) ?_, hgs]
    intro h hs hc
    rw [hgs] at hc
    subst hc
    exact Ne.symm (List.chain'_cons.mp hch).1

lemma mergeChunks_cons_eq (p : Char → Bool) (g : List Char) (gs : List (List Char)) :
    mergeChunks p (g :: gs) =
      match mergeChunks p gs with
      | [] => [g]
      | h :: hs => if p g.headI = p h.headI then (g ++ h) :: hs else g :: h :: hs := rfl

lemma mergeChunks_flatten (p : Char → Bool) :
    ∀ cs : List (List Char), (mergeChunks p cs).flatten = cs.flatten := by
  intro cs
  induction cs with
  | nil => rfl
  | cons g gs ih =>
    cases hm : mergeChunks p gs with
    | nil =>
      rw [hm, List.flatten_nil] at ih
      simp only [mergeChunks_cons_eq, hm, List.flatten_cons, List.flatten_nil, List.append_nil]
      rw [← ih, List.append_nil]
    | cons h hs =>
      rw [hm] at ih
      simp only [mergeChunks_cons_eq, hm]
      by_cases hpg : p g.headI = p h.headI
      · rw [if_pos hpg, List.flatten_cons, List.flatten_cons, List.append_assoc,
          ← List.flatten_cons, ih]
      · rw [if_neg hpg, List.flatten_cons, ih, List.flatten_cons]

lemma mergeChunks_head (p : Char → Bool) (g : List Char) (gs : List (List Char)) :
    ∃ k ks, mergeChunks p (g :: gs) = k :: ks ∧ ∃ t, k = g ++ t := by
  cases hm : mergeChunks p gs with
  | nil =>
    refine ⟨g, [], ?_, [], (List.append_nil g).symm⟩
    simp only [mergeChunks_cons_eq, hm]
  | cons h hs =>
    by_cases hpg : p g.headI = p h.headI
    · refine ⟨g ++ h, hs, ?_, h, rfl⟩
      simp only [mergeChunks_cons_eq, hm, if_pos hpg]
    · refine ⟨g, h :: hs, ?_, [], (List.append_nil g).symm⟩
      simp only [mergeChunks_cons_eq, hm, if_neg hpg]

lemma mergeChunks_spec (p : Char → Bool) :
    ∀ cs : List (List Char), (∀ g ∈ cs, g ≠ []) → (∀ g ∈ cs, Homog p g) →
    (∀ k ∈ mergeChunks p cs, k ≠ [] ∧ Homog p k) ∧
    List.Chain' (fun g h => p g.headI ≠ p h.headI) (mergeChunks p cs) := by
  intro cs
  induction cs with
  | nil => intro _ _; exact ⟨fun k hk => absurd hk (List.not_mem_nil k), List.chain'_nil⟩
  | cons g gs ih =>
    intro hne hhom
    obtain ⟨ihmem, ihch⟩ := ih (fun x hx => hne x (List.mem_cons_of_mem _ hx))
      (fun x hx => hhom x (List.mem_cons_of_mem _ hx))
    have hgne := hne g (List.mem_cons_self ..)
    have hghom := hhom g (List.mem_cons_self ..)
    cases hm : mergeChunks p gs with
    | nil =>
      simp only [mergeChunks_cons_eq, hm]
      refine ⟨?_, List.chain'_singleton _⟩
      intro k hk
      rcases List.mem_singleton.mp hk with rfl
      exact ⟨hgne, hghom⟩
    | cons h hs =>
      rw [hm] at ihmem ihch
      obtain ⟨hhne, hhhom⟩ := ihmem h (List.mem_cons_self ..)
      by_cases hpg : p g.headI = p h.headI
      · simp only [mergeChunks_cons_eq, hm, if_pos hpg]
        constructor
        · intro k hk
          rcases List.mem_cons.mp hk with rfl | hk'
          · refine ⟨by simp [hgne], ?_⟩
            intro x hx
            rw [headI_append h hgne]
            rcases List.mem_append.mp hx with hx' | hx'
            · exact hghom x hx'
            · rw [hhhom x hx', ← hpg]
          · exact ihmem k (List.mem_cons_of_mem _ hk')
        · rcases List.chain'_cons'.mp ihch with ⟨hrel, hhs⟩
          refine List.chain'_cons'.mpr ⟨?_, hhs⟩
          intro b hb
          rw [headI_append h hgne, hpg]
          exact hrel b hb
      · simp only [mergeChunks_cons_eq, hm, if_neg hpg]
        constructor
        · intro k hk
          rcases List.mem_cons.mp hk with rfl | hk'
          · exact ⟨hgne, hghom⟩
          · exact ihmem k hk'
        · exact List.chain'_cons.mpr ⟨hpg, ihch⟩

lemma mergeChunks_true_mem (p : Char → Bool) :
    ∀ cs : List (List Char),
    (∀ g ∈ cs, g ≠ []) →
    List.Chain' (fun g h => ¬(p g.headI = true ∧ p h.headI = true)) cs →
    ∀ k ∈ mergeChunks p cs, p k.headI = true → k ∈ cs := by
  intro cs
  induction cs with
  | nil => intro _ _ k hk; cases hk
  | cons g gs ih =>
    intro hne hch k hk hpk
    have ihgs := ih (fun x hx => hne x (List.mem_cons_of_mem _ hx)) hch.tail
    cases hm : mergeChunks p gs with
    | nil =>
      simp only [mergeChunks_cons_eq, hm] at hk
      rcases List.mem_singleton.mp hk with rfl
      exact List.mem_cons_self ..
    | cons h hs =>
      by_cases hpg : p g.headI = p h.headI
      · simp only [mergeChunks_cons_eq, hm, if_pos hpg] at hk
        rcases List.mem_cons.mp hk with rfl | hk'
        · exfalso
          have hgne := hne g (List.mem_cons_self ..)
          rw [headI_append h hgne] at hpk
          cases gs with
          | nil => rw [show mergeChunks p ([] : List (List Char)) = [] from rfl] at hm; cases hm
          | cons g₂ gs' =>
            obtain ⟨k₂, ks₂, hk₂, t, ht⟩ := mergeChunks_head p g₂ gs'
            rw [hk₂] at hm
            have hhk : h = k₂ := by injection hm with h1 _; exact h1.symm
            have hg₂ne := hne g₂ (List.mem_cons_of_mem _ (List.mem_cons_self ..))
            have hg₂true : p g₂.headI = true := by
              rw [← headI_append t hg₂ne, ← ht, ← hhk, ← hpg]
              exact hpk
            exact (List.chain'_cons.mp hch).1 ⟨hpk, hg₂true⟩
        · exact List.mem_cons_of_mem _ (ihgs k (hm ▸ List.mem_cons_of_mem _ hk') hpk)
      · simp only [mergeChunks_cons_eq, hm, if_neg hpg] at hk
        rcases List.mem_cons.mp hk with rfl | hk'
        · exact List.mem_cons_self ..
        · exact List.mem_cons_of_mem _ (ihgs k (hm ▸ hk') hpk)

lemma homog_replicate (p : Char → Bool) (n : Nat) (c : Char) :
    Homog p (List.replicate n c) := by
  intro x hx
  rw [List.eq_of_mem_replicate hx]
  cases n with
  | zero => cases hx
  | succ m => rfl

lemma replicate_ne_nil {n : Nat} {c : Char} (hn : n ≠ 0) :
    List.replicate n c ≠ [] := by
  cases n with
  | zero => exact absurd rfl hn
  | succ m => exact List.cons_ne_nil _ _

lemma censorChunks_stable (cfg : Cfg) (st : St) :
    ∀ cs : List (List Char),
    (∀ g ∈ cs, cfg.isWordChar g.headI = true → Stable cfg st g) →
    censorChunks cfg cs st = .ok (some (cs.flatten, st)) := by
  intro cs
  induction cs with
  | nil => intro _; rfl
  | cons g gs ih =>
    intro hst
    have ihgs := ih (fun x hx => hst x (List.mem_cons_of_mem _ hx))
    rw [censorChunks]
    by_cases hw : cfg.isWordChar g.headI = true
    · rw [if_pos hw]
      rw [show censorWord cfg st g = .ok (some
          ({ uncensored := g, censored := g, original_profane_word := none }, st)) from
        hst g (List.mem_cons_self ..) hw]
      dsimp only
      rw [ihgs]
      rw [List.flatten_cons]
    · rw [if_neg hw]
      rw [ihgs]
      rw [List.flatten_cons]

lemma censorChunks_analysis (cfg : Cfg)
    (hdeep : AnalysisType.deep ∉ cfg.analyses) :
    ∀ (cs : List (List Char)) (st : St), StOk cfg st →
    (∀ g ∈ cs, g ≠ []) →
    (∀ g ∈ cs, Homog cfg.isWordChar g) →
    ∀ r st', censorChunks cfg cs st = .ok (some (r, st')) →
    StOk cfg st' ∧
    st'.wordsWithNoProfanityInside = st.wordsWithNoProfanityInside ∧
    (∀ u, Stable cfg st u → Stable cfg st' u) ∧
    ∃ cs' : List (List Char), r = cs'.flatten ∧
      List.Forall₂ (fun g g' =>
        g' ≠ [] ∧
        (cfg.isWordChar g'.headI = true → cfg.isWordChar g.headI = true) ∧
        Homog cfg.isWordChar g' ∧
        (cfg.isWordChar g'.headI = true → Stable cfg st' g')) cs cs' := by
  intro cs
  induction cs with
  | nil =>
    intro st hok hne hhom r st' h
    simp only [censorChunks, Except.ok.injEq, Option.some.injEq, Prod.mk.injEq] at h
    obtain ⟨hr, hst⟩ := h
    subst hr
    subst hst
    exact ⟨hok, rfl, fun u hu => hu, [], rfl, List.Forall₂.nil⟩
  | cons g gs ih =>
    intro st hok hne hhom r st' h
    have hgne := hne g (List.mem_cons_self ..)
    have hgshne := fun x hx => hne x (List.mem_cons_of_mem _ hx)
    have hgshom := fun x hx => hhom x (List.mem_cons_of_mem _ hx)
    rw [censorChunks] at h
    by_cases hw : cfg.isWordChar g.headI = true
    · rw [if_pos hw] at h
      cases hcw : censorWord cfg st g with
      | error e => rw [hcw] at h; simp at h
      | ok o =>
        cases o with
        | none => rw [hcw] at h; simp at h
        | some pr =>
          obtain ⟨res, st₁⟩ := pr
          rw [hcw] at h
          dsimp only at h
          have hok₁ := stok_of_step hdeep hok hcw
          cases hrest : censorChunks cfg gs st₁ with
          | error e => rw [hrest] at h; simp at h
          | ok o₂ =>
            cases o₂ with
            | none => rw [hrest] at h; simp at h
            | some pr₂ =>
              obtain ⟨rs, st₂⟩ := pr₂
              rw [hrest] at h
              simp only [Except.ok.injEq, Option.some.injEq, Prod.mk.injEq] at h
              obtain ⟨hr, hst⟩ := h
              subst hr
              subst hst
              obtain ⟨hok₂, hclean₂, htrans₂, cs'gs, hrs, hf₂⟩ :=
                ih st₁ hok₁ hgshne hgshom rs _ hrest
              have htrans : ∀ u, Stable cfg st u → Stable cfg st₂ u :=
                fun u hu => htrans₂ u (stable_step hdeep hok hcw hu)
              refine ⟨hok₂, ?_, htrans, res.censored :: cs'gs, by rw [hrs, List.flatten_cons],
                List.Forall₂.cons ?_ hf₂⟩
              · rw [hclean₂, clean_eq_of_step hdeep hok hcw]
              · rcases cw_cases hdeep hok hcw with ⟨hres, hst₁⟩ | ⟨hunc, hcen, hacg, _⟩
                · subst hres
                  subst hst₁
                  refine ⟨hgne, fun _ => hw, hhom g (List.mem_cons_self ..), fun _ => ?_⟩
                  exact htrans g hcw
                · rw [hcen]
                  have hlen : g.length ≠ 0 := fun h0 => hgne (List.length_eq_zero.mp h0)
                  refine ⟨replicate_ne_nil hlen, fun _ => hw,
                    homog_replicate cfg.isWordChar g.length cfg.censorChar, fun _ => ?_⟩
                  exact (stable_iff hdeep hok₂).mpr (Or.inl (allCensor_replicate cfg g.length))
    · rw [if_neg hw] at h
      cases hrest : censorChunks cfg gs st with
      | error e => rw [hrest] at h; simp at h
      | ok o₂ =>
        cases o₂ with
        | none => rw [hrest] at h; simp at h
        | some pr₂ =>
          obtain ⟨rs, st₂⟩ := pr₂
          rw [hrest] at h
          simp only [Except.ok.injEq, Option.some.injEq, Prod.mk.injEq] at h
          obtain ⟨hr, hst⟩ := h
          subst hr
          subst hst
          obtain ⟨hok₂, hclean₂, htrans₂, cs'gs, hrs, hf₂⟩ :=
            ih st hok hgshne hgshom rs _ hrest
          refine ⟨hok₂, hclean₂, htrans₂, g :: cs'gs, by rw [hrs, List.flatten_cons],
            List.Forall₂.cons ?_ hf₂⟩
          exact ⟨hgne, fun hq => hq, hhom g (List.mem_cons_self ..),
            fun hq => absurd hq hw⟩

lemma forall₂_mem_right {α β : Type} {R : α → β → Prop} :
    ∀ {l₁ : List α} {l₂ : List β}, List.Forall₂ R l₁ l₂ → ∀ b ∈ l₂, ∃ a ∈ l₁, R a b := by
  intro l₁ l₂ hf
  induction hf with
  | nil => intro b hb; cases hb
  | cons hr _ ih =>
    intro b hb
    rcases List.mem_cons.mp hb with rfl | hb'
    · exact ⟨_, List.mem_cons_self .., hr⟩
    · obtain ⟨a, ha, hra⟩ := ih b hb'
      exact ⟨a, List.mem_cons_of_mem _ ha, hra⟩

lemma chain'_of_forall₂ {α β : Type} {R : α → β → Prop} {S : α → α → Prop} {T : β → β → Prop} :
    ∀ {l₁ : List α} {l₂ : List β}, List.Forall₂ R l₁ l₂ → List.Chain' S l₁ →
    (∀ a a' b b', R a b → R a' b' → S a a' → T b b') → List.Chain' T l₂ := by
  intro l₁ l₂ hf
  induction hf with
  | nil => intro _ _; exact List.chain'_nil
  | @cons a b l₁' l₂' hr hf' ih =>
    intro hc himp
    rcases List.chain'_cons'.mp hc with ⟨hhead, htail⟩
    refine List.chain'_cons'.mpr ⟨?_, ih htail himp⟩
    intro y hy
    cases l₂' with
    | nil => cases hy
    | cons y₀ l₂'' =>
      have hyy : y₀ = y := by simpa using hy
      subst hyy
      cases hf' with
      | cons hr₀ _ =>
        rename_i x₀ l₁'' _
        exact himp a x₀ b _ hr hr₀ (hhead x₀ rfl)

lemma censorText_idem {cfg : Cfg} {st : St} {s r : List Char} {st' : St}
    (hdeep : AnalysisType.deep ∉ cfg.analyses)
    (hok : StOk cfg st)
    (h : censorText cfg st s = .ok (some (r, st'))) :
    censorText cfg st' r = .ok (some (r, st')) := by
  unfold censorText at h ⊢
  obtain ⟨hok', hclean, htrans, cs', hr, hf⟩ :=
    censorChunks_analysis cfg hdeep (chunksBy cfg.isWordChar s) st hok
      (chunksBy_ne_nil cfg.isWordChar s) (chunksBy_homog cfg.isWordChar s) r st' h
  have hne' : ∀ g' ∈ cs', g' ≠ [] := by
    intro g' hg'
    obtain ⟨_, _, hrel⟩ := forall₂_mem_right hf g' hg'
    exact hrel.1
  have hhom' : ∀ g' ∈ cs', Homog cfg.isWordChar g' := by
    intro g' hg'
    obtain ⟨_, _, hrel⟩ := forall₂_mem_right hf g' hg'
    exact hrel.2.2.1
  have hsta : ∀ g' ∈ cs', cfg.isWordChar g'.headI = true → Stable cfg st' g' := by
    intro g' hg'
    obtain ⟨_, _, hrel⟩ := forall₂_mem_right hf g' hg'
    exact hrel.2.2.2
  have hchain' : List.Chain'
      (fun g h => ¬(cfg.isWordChar g.headI = true ∧ cfg.isWordChar h.headI = true)) cs' := by
    refine chain'_of_forall₂ hf (chunksBy_chain cfg.isWordChar s) ?_
    intro a a' b b' hab ha'b' hS hT
    exact hS (by rw [hab.2.1 hT.1, ha'b'.2.1 hT.2])
  obtain ⟨hmmem, hmchain⟩ := mergeChunks_spec cfg.isWordChar cs' hne' hhom'
  have huniq : chunksBy cfg.isWordChar (cs'.flatten) = mergeChunks cfg.isWordChar cs' := by
    have hu := chunksBy_unique cfg.isWordChar (mergeChunks cfg.isWordChar cs')
      (fun k hk => (hmmem k hk).1) (fun k hk => (hmmem k hk).2) hmchain
    rw [mergeChunks_flatten] at hu
    exact hu
  rw [hr, huniq]
  have hstab : ∀ k ∈ mergeChunks cfg.isWordChar cs',
      cfg.isWordChar k.headI = true → Stable cfg st' k := by
    intro k hk hpk
    exact hsta k (mergeChunks_true_mem cfg.isWordChar cs' hne' hchain' k hk hpk) hpk
  rw [censorChunks_stable cfg st' (mergeChunks cfg.isWordChar cs') hstab,
    mergeChunks_flatten]

lemma censorWord_none_of_run_none {cfg : Cfg} {st : St} {w : List Char}
    (h : censorWordRun cfg st w = .ok none) :
    censorWord cfg st w = .ok none := by
  unfold censorWord
  rw [h]

lemma run_ne_none {cfg : Cfg} {st : St} {w : List Char}
    (hdeep : AnalysisType.deep ∉ cfg.analyses)
    (hok : StOk cfg st) :
    censorWordRun cfg st w ≠ .ok none := by
  intro hnone
  have hcw := censorWord_none_of_run_none hnone
  by_cases hac : allCensorChars cfg w = true
  · rw [cw_allCensor hdeep hac] at hcw
    simp at hcw
  rw [Bool.not_eq_true] at hac
  by_cases hfast : hasNoProfanity st (lemmasOf cfg w) = true
  · rw [cw_fast hdeep hac hfast] at hcw
    simp at hcw
  rw [Bool.not_eq_true] at hfast
  cases hcache : getCensoredWord st w with
  | some cw =>
    rw [cw_cached hdeep hok hac hfast hcache] at hcw
    simp at hcw
  | none =>
    cases hfind : findProfaneLemma cfg (lemmasOf cfg w) with
    | none =>
      rw [cw_no_hit hdeep hac hfast hcache hfind] at hcw
      simp at hcw
    | some lm =>
      cases hw : cfg.censorWholeWords with
      | true =>
        rw [cw_hit_whole hdeep hw hac hfast hcache hfind] at hcw
        simp at hcw
      | false =>
        rw [cw_hit_noWhole hw hac hfast hcache hfind] at hcw
        simp at hcw

lemma mem_lookupDict_dictSetUnion :
    ∀ (d : List (String × List String)) (k : String) (ws : List String) (l w : String),
    (w ∈ lookupDict (dictSetUnion d k ws) l ↔ (w ∈ lookupDict d l ∨ (l = k ∧ w ∈ ws))) := by
  intro d
  induction d with
  | nil =>
    intro k ws l w
    unfold dictSetUnion lookupDict
    by_cases hl : l = k
    · subst hl
      rw [List.find?_cons_of_pos _ (by simp), List.find?_nil]
      simp
    · rw [List.find?_cons_of_neg _ (by simpa using fun he => hl he.symm), List.find?_nil]
      simp [hl]
  | cons e d' ih =>
    intro k ws l w
    rw [dictSetUnion]
    by_cases hek : (e.1 == k) = true
    · rw [if_pos hek]
      have hek' : e.1 = k := by simpa using hek
      unfold lookupDict
      by_cases hl : e.1 = l
      · rw [List.find?_cons_of_pos _ (by simpa using hl),
          List.find?_cons_of_pos _ (by simpa using hl)]
        have hlk : l = k := by rw [← hl, hek']
        simp only [List.mem_append, List.mem_filter, hlk]
        constructor
        · rintro (hw | ⟨hw, _⟩)
          · exact Or.inl hw
          · exact Or.inr ⟨by trivial, hw⟩
        · rintro (hw | ⟨_, hw⟩)
          · exact Or.inl hw
          · by_cases hin : w ∈ e.2
            · exact Or.inl hin
            · refine Or.inr ⟨hw, ?_⟩
              simpa using hin
      · rw [List.find?_cons_of_neg _ (by simpa using hl),
          List.find?_cons_of_neg _ (by simpa using hl)]
        have hlk : ¬(l = k) := fun he => hl (by rw [hek', he])
        simp [hlk]
    · rw [if_neg hek]
      have hek' : ¬(e.1 = k) := by simpa using hek
      unfold lookupDict
      by_cases hl : e.1 = l
      · rw [List.find?_cons_of_pos _ (by simpa using hl),
          List.find?_cons_of_pos _ (by simpa using hl)]
        have hlk : ¬(l = k) := fun he => hek' (by rw [hl, he])
        simp [hlk]
      · rw [List.find?_cons_of_neg _ (by simpa using hl),
          List.find?_cons_of_neg _ (by simpa using hl)]
        exact ih k ws l w

lemma mem_lookup_foldUnion (extra : List (String × List String)) :
    ∀ (ls : List String) (d : List (String × List String)) (l w : String),
    (w ∈ lookupDict (ls.foldl (fun res lang => dictSetUnion res lang (lookupDict extra lang)) d) l ↔
      (w ∈ lookupDict d l ∨ (l ∈ ls ∧ w ∈ lookupDict extra l))) := by
  intro ls
  induction ls with
  | nil =>
    intro d l w
    simp
  | cons a ls' ih =>
    intro d l w
    rw [List.foldl_cons, ih, mem_lookupDict_dictSetUnion]
    constructor
    · rintro ((hw | ⟨rfl, hw⟩) | ⟨hm, hw⟩)
      · exact Or.inl hw
      · exact Or.inr ⟨List.mem_cons_self .., hw⟩
      · exact Or.inr ⟨List.mem_cons_of_mem _ hm, hw⟩
    · rintro (hw | ⟨hm, hw⟩)
      · exact Or.inl (Or.inl hw)
      · rcases List.mem_cons.mp hm with rfl | hm'
        · exact Or.inl (Or.inr ⟨rfl, hw⟩)
        · exact Or.inr ⟨hm', hw⟩

lemma mem_addDrop {d : Nat × Nat} {ivs : List (Nat × Nat)} (x : Option (Nat × Nat))
    (hd : d ∈ ivs) : d ∈ addDrop x ivs := by
  cases x with
  | none => exact hd
  | some y => exact List.mem_cons_of_mem _ hd

lemma dropSubstrings_mem_passes :
    ∀ (spans : List Span) (sends : List (Option (Nat × Nat))) (intervals : List (Nat × Nat)),
    ∀ sp ∈ dropSubstrings spans sends intervals,
    ∀ d ∈ intervals, sp.start < d.1 ∨ d.2 < sp.finish := by
  intro spans
  induction spans with
  | nil => intro _ _ sp hsp; cases hsp
  | cons s rest ih =>
    intro sends intervals sp hsp d hd
    rw [dropSubstrings] at hsp
    by_cases hp : spanPasses intervals s = true
    · rw [if_pos hp] at hsp
      rcases List.mem_cons.mp hsp with rfl | hsp'
      · unfold spanPasses at hp
        rw [List.all_eq_true] at hp
        have hpd := hp d hd
        simpa using hpd
      · exact ih _ _ sp hsp' d (mem_addDrop _ hd)
    · rw [if_neg hp] at hsp
      exact ih _ _ sp hsp d hd

lemma cw_clean_unchanged {cfg : Cfg} {st : St} {w : List Char}
    (hdeep : AnalysisType.deep ∉ cfg.analyses)
    (hfind : findProfaneLemma cfg (lemmasOf cfg w) = none)
    (hcache : getCensoredWord st w = none) :
    censorWord cfg st w =
      .ok (some ({ uncensored := w, censored := w, original_profane_word := none }, st)) := by
  by_cases hac : allCensorChars cfg w = true
  · exact cw_allCensor hdeep hac
  rw [Bool.not_eq_true] at hac
  by_cases hfast : hasNoProfanity st (lemmasOf cfg w) = true
  · exact cw_fast hdeep hac hfast
  rw [Bool.not_eq_true] at hfast
  exact cw_no_hit hdeep hac hfast hcache hfind

/-- A concrete configuration for witnesses: censor char `*`, whole-word
masking on, the analyses produced by the setter (the empty set), a dictionary
containing only `fuck`, no normal forms beyond the surface one, and the space
as the only separator character. -/
def demoCfg : Cfg :=
  { censorChar := '*'
    censorWholeWords := true
    analyses := analysesSetter [AnalysisType.deep]
    isProfane := fun w => w == ['f','u','c','k']
    extraLemmas := fun _ => []
    isWordChar := fun ch => !(ch == ' ') }

/-- The witness configuration with whole-word masking disabled. -/
def demoNoWholeCfg : Cfg := { demoCfg with censorWholeWords := false }

/-- Fresh caches, as after `clear_cache`. -/
def emptySt : St := { censoredWords := [], wordsWithNoProfanityInside := [] }

/-- The censored word produced for `fuck` under `demoCfg`. -/
def demoMask : Word :=
  { uncensored := ['f','u','c','k']
    censored := ['*','*','*','*']
    original_profane_word := some ['f','u','c','k'] }

/-- The cache state after censoring `fuck` under `demoCfg`: both the
word-part save and the engine epilogue save store the same entry. -/
def demoSt1 : St :=
  { censoredWords := [(['f','u','c','k'], demoMask), (['f','u','c','k'], demoMask)]
    wordsWithNoProfanityInside := [] }

/-- C1: the claim says that with whole-word masking disabled,
`_censor_word_part` on a matched candidate returns a `Word` replacing only
the matched text.  The code instead raises `UnboundLocalError` at
`Word(censored=censored, ...)` because the local `censored` is only assigned
in the whole-word branch: evaluating the embedded `_censor_word_part` at the
failing input (whole-word masking off, word `fuck`, dictionary containing
`fuck`, fresh caches) yields the error. -/
theorem c1_partial_masking_crash :
    censorWordPart demoNoWholeCfg emptySt ['f','u','c','k'] = .error () := rfl

/-- C2: the length invariant.  For every token `w` on which `_censor_word`
returns (whatever the whole-word flag), the censored text has exactly the
length of the input: the word either comes back unchanged or as the censor
character repeated to the original length.  Hypotheses: deep analysis is not
in the effective analyses set (always true in this program, where
`AVAILABLE_ANALYSES` is empty) and every cache entry is a full mask of its
key (true of every reachable state from fresh caches). -/
theorem c2_length_invariant (cfg : Cfg) (st : St) (w : List Char) (res : Word) (st' : St)
    (hdeep : AnalysisType.deep ∉ cfg.analyses)
    (hok : StOk cfg st)
    (h : censorWord cfg st w = .ok (some (res, st'))) :
    res.censored.length = w.length := by
  rcases censored_shape_of_step hdeep hok h with hc | hc
  · rw [hc]
  · rw [hc, List.length_replicate]

/-- C2 witness: censoring `fuck` from fresh caches returns the four-character
mask, length preserved. -/
theorem c2_length_invariant_witness :
    demoMask.censored.length = (['f','u','c','k'] : List Char).length :=
  c2_length_invariant demoCfg emptySt ['f','u','c','k'] demoMask demoSt1 (by decide)
    (by intro e he; cases he) (by rfl)

/-- C3 counterexample: the claim states that after suppressing interval
`[2,4)` every later span overlapping it (start `< 4` and finish `> 2`) is
skipped; but the span `(1,3)`, which overlaps `[2,4)`, is still yielded by
`_drop_substrings`, because the code only skips spans contained in a
suppressed interval. -/
theorem c3_counterexample :
    ({ text := ['b'], start := 1, finish := 3 } : Span) ∈
      dropSubstrings
        [{ text := ['a','b'], start := 2, finish := 4 },
         { text := ['b'], start := 1, finish := 3 }]
        [some (2, 4), none] [] ∧
    ((1 : Nat) < 4 ∧ (2 : Nat) < 3) := by decide

/-- C3 amended: after the consumer suppresses `[a,b)`, every subsequently
yielded span is *not contained* in it — each yielded span starts before the
interval's start or finishes after its finish (the code skips exactly the
contained spans, not all overlapping ones).  Stated for an arbitrary
already-recorded interval set, which covers every moment of the enumeration
since intervals are only ever added. -/
theorem c3_containment_skip (spans : List Span) (sends : List (Option (Nat × Nat)))
    (intervals : List (Nat × Nat)) (sp : Span)
    (h : sp ∈ dropSubstrings spans sends intervals) :
    ∀ d ∈ intervals, sp.start < d.1 ∨ d.2 < sp.finish :=
  dropSubstrings_mem_passes spans sends intervals sp h

/-- C3 witness: a concrete enumeration with the interval `(2,3)` recorded. -/
theorem c3_containment_skip_witness :
    ({ text := ['x'], start := 0, finish := 1 } : Span).start < 2 ∨
      3 < ({ text := ['x'], start := 0, finish := 1 } : Span).finish :=
  c3_containment_skip [{ text := ['x'], start := 0, finish := 1 }] []
    [(2, 3)] { text := ['x'], start := 0, finish := 1 } (by decide) (2, 3) (by decide)

/-- C4 counterexample: the claim says dictionary resolution is per-language.
With languages `a, b`, a custom dictionary only for `a`, and a base
dictionary containing `y` for `b`, the claim predicts that `b` resolves to
its base dictionary; the code resolves `b` to the empty set because any
non-empty custom mapping replaces the base dictionaries for all languages. -/
theorem c4_counterexample :
    lookupDict
      (profaneWordDictionaries ["a", "b"] [("a", ["x"])] [] [("a", ["p"]), ("b", ["y"])])
      "b" = [] ∧
    lookupDict [("a", ["p"]), ("b", ["y"])] "b" = ["y"] := by decide

/-- C4 amended: resolution is global, not per-language — if the custom
mapping has any key it replaces the base dictionaries for every language
(languages without a custom entry resolve to the empty set), otherwise the
base dictionaries are used; the extra dictionary is then unioned in for every
configured language that has an extra entry. -/
theorem c4_global_custom_replacement (languages : List String)
    (custom extra base : List (String × List String)) (lang w : String) :
    w ∈ lookupDict (profaneWordDictionaries languages custom extra base) lang ↔
      ((if custom.isEmpty then w ∈ lookupDict base lang else w ∈ lookupDict custom lang) ∨
       (lang ∈ languages ∧ hasKey extra lang = true ∧ w ∈ lookupDict extra lang)) := by
  simp only [profaneWordDictionaries]
  rw [mem_lookup_foldUnion, List.mem_filter]
  by_cases hc : custom.isEmpty = true
  · rw [if_pos hc, if_pos hc]
    tauto
  · rw [if_neg hc, if_neg hc]
    tauto

/-- C4 witness: with a custom dictionary for `a`, the word `x` is resolved
for `a`. -/
theorem c4_global_custom_replacement_witness :
    "x" ∈ lookupDict (profaneWordDictionaries ["a"] [("a", ["x"])] [] []) "a" :=
  (c4_global_custom_replacement ["a"] [("a", ["x"])] [] [] "a" "x").mpr (by decide)

/-- C5 counterexample: the claim says censoring a text with no dictionary
matches records its words as known-clean.  Censoring `hello world` under the
program's configuration (effective analyses empty) returns the text unchanged
but the known-clean cache of the resulting state is still empty — `hello`
was not recorded. -/
theorem c5_counterexample :
    censorText demoCfg emptySt "hello world".data = .ok (some ("hello world".data, emptySt)) ∧
    "hello".data ∉ emptySt.wordsWithNoProfanityInside := by
  constructor
  · rfl
  · intro hm
    cases hm

/-- C5 amended: a word with no match anywhere is returned unchanged, but it
is recorded as known-clean only under deep analysis, which is never in the
effective analyses set; so the caches are left exactly as they were. -/
theorem c5_no_clean_recording (cfg : Cfg) (st : St) (w : List Char)
    (hdeep : AnalysisType.deep ∉ cfg.analyses)
    (hfind : findProfaneLemma cfg (lemmasOf cfg w) = none)
    (hcache : getCensoredWord st w = none) :
    censorWord cfg st w =
      .ok (some ({ uncensored := w, censored := w, original_profane_word := none }, st)) :=
  cw_clean_unchanged hdeep hfind hcache

/-- C5 witness: censoring the clean word `hi` from fresh caches. -/
theorem c5_no_clean_recording_witness :
    censorWord demoCfg emptySt ['h','i'] =
      .ok (some ({ uncensored := ['h','i'], censored := ['h','i'],
                   original_profane_word := none }, emptySt)) :=
  c5_no_clean_recording demoCfg emptySt ['h','i'] (by decide) (by rfl) (by rfl)

/-- C6: the known-clean fast path.  If some normalized form of the candidate
is a member of the known-clean set, `_censor_word_part` returns the candidate
uncensored with the no-profanity flag and the state untouched — and the
result does not depend on the profane-word dictionary at all (the theorem
holds for every dictionary `p`), i.e. no dictionary lookup is performed. -/
theorem c6_known_clean_fast_path (cfg : Cfg) (p : List Char → Bool) (st : St)
    (w l : List Char)
    (h1 : l ∈ lemmasOf cfg w) (h2 : l ∈ st.wordsWithNoProfanityInside) :
    censorWordPart { cfg with isProfane := p } st w =
      .ok ({ uncensored := w, censored := w, original_profane_word := none }, true, st) := by
  apply part_fast
  unfold hasNoProfanity
  rw [List.any_eq_true]
  refine ⟨l, h1, ?_⟩
  rw [List.any_eq_true]
  exact ⟨l, h2, decide_eq_true (List.infix_refl l)⟩

/-- C6 witness: candidate `hi` with `hi` in the known-clean set and an
all-accepting dictionary still takes the fast path. -/
theorem c6_known_clean_fast_path_witness :
    censorWordPart { demoCfg with isProfane := fun _ => true }
      { censoredWords := [], wordsWithNoProfanityInside := [['h','i']] } ['h','i'] =
      .ok ({ uncensored := ['h','i'], censored := ['h','i'],
             original_profane_word := none }, true,
        { censoredWords := [], wordsWithNoProfanityInside := [['h','i']] }) :=
  c6_known_clean_fast_path demoCfg (fun _ => true)
    { censoredWords := [], wordsWithNoProfanityInside := [['h','i']] }
    ['h','i'] ['h','i'] (by decide) (by decide)

/-- C7: idempotence of `censor`.  Whenever a censoring run returns (deep
analysis not in the effective set — always true here — and the cache in the
mask-shape invariant, true of every reachable state), censoring the output
again returns it unchanged with the same final state: already-masked spans
are dropped by the all-censor-character filter and clean tokens stay clean. -/
theorem c7_censor_idempotent (cfg : Cfg) (st : St) (s r : List Char) (st' : St)
    (hdeep : AnalysisType.deep ∉ cfg.analyses)
    (hok : StOk cfg st)
    (h : censorText cfg st s = .ok (some (r, st'))) :
    censorText cfg st' r = .ok (some (r, st')) :=
  censorText_idem hdeep hok h

/-- C7 witness: re-censoring the censored form of `fuck you`. -/
theorem c7_censor_idempotent_witness :
    censorText demoCfg demoSt1 ['*','*','*','*',' ','y','o','u'] =
      .ok (some (['*','*','*','*',' ','y','o','u'], demoSt1)) :=
  c7_censor_idempotent demoCfg emptySt ['f','u','c','k',' ','y','o','u']
    ['*','*','*','*',' ','y','o','u'] demoSt1 (by decide)
    (by intro e he; cases he) (by rfl)

/-- C8: termination bound.  The outer loop of `_censor_word`, run with fuel
`len(word) + 1` (one unit per executed pass), never exhausts the fuel: the
loop terminates within `len(word) + 1` passes.  Hypotheses as for C2. -/
theorem c8_termination_bound (cfg : Cfg) (st : St) (w : List Char)
    (hdeep : AnalysisType.deep ∉ cfg.analyses)
    (hok : StOk cfg st) :
    censorWordGo cfg w (w.length + 1) none
      { uncensored := w, censored := w, original_profane_word := none } st ≠ .ok none :=
  run_ne_none hdeep hok

/-- C8 witness: the loop on `fuck` from fresh caches completes within five
passes. -/
theorem c8_termination_bound_witness :
    censorWordGo demoCfg ['f','u','c','k'] ((['f','u','c','k'] : List Char).length + 1) none
      { uncensored := ['f','u','c','k'], censored := ['f','u','c','k'],
        original_profane_word := none } emptySt ≠ .ok none :=
  c8_termination_bound demoCfg emptySt ['f','u','c','k'] (by decide)
    (by intro e he; cases he)

/-- C9 counterexample: the claim says that configuring a non-empty custom
dictionary must not raise even when no base dictionary file exists.  The
code's `clear_cache` calls `_update_profane_word_dictionary_files`
unconditionally, so with a custom dictionary for `en` and no files it still
raises `ProfanityFilterError`. -/
theorem c9_counterexample :
    clearCache ["en"] (fun _ => false) (fun _ => []) [("en", ["bad"])] [] = .error () ∧
    ([("en", ["bad"])] : List (String × List String)) ≠ [] := by
  constructor
  · rfl
  · intro hm
    cases hm

/-- C9 amended: configuration raises `ProfanityFilterError` if and only if no
configured language has a base dictionary file — irrespective of the custom
and extra dictionaries. -/
theorem c9_error_iff_no_files (languages : List String) (hasFile : String → Bool)
    (fileWords : String → List String) (custom extra : List (String × List String)) :
    (clearCache languages hasFile fileWords custom extra = .error ()) ↔
      ∀ l ∈ languages, hasFile l = false := by
  have hiff : ((languages.filter hasFile).isEmpty = true) ↔
      (∀ l ∈ languages, hasFile l = false) := by
    rw [List.isEmpty_iff, List.filter_eq_nil_iff]
    simp
  unfold clearCache
  by_cases hf : (languages.filter hasFile).isEmpty = true
  · have hupd : updateProfaneWordDictionaryFiles languages hasFile = .error () := by
      unfold updateProfaneWordDictionaryFiles
      rw [if_pos hf]
    rw [hupd]
    exact iff_of_true rfl (hiff.mp hf)
  · have hupd : updateProfaneWordDictionaryFiles languages hasFile =
        .ok (languages.filter hasFile) := by
      unfold updateProfaneWordDictionaryFiles
      rw [if_neg hf]
    rw [hupd]
    refine iff_of_false ?_ (fun hall => hf (hiff.mpr hall))
    intro h
    by_cases hcu : custom.isEmpty = true
    · rw [if_pos hcu] at h
      unfold loadProfaneWordDictionaries at h
      rw [hupd] at h
      simp at h
    · rw [if_neg hcu] at h
      simp at h

/-- C9 witness: one language, no files, empty custom dictionaries — the
error is raised. -/
theorem c9_error_iff_no_files_witness :
    clearCache ["ru"] (fun _ => false) (fun _ => []) [] [] = .error () :=
  (c9_error_iff_no_files ["ru"] (fun _ => false) (fun _ => []) [] []).mpr
    (by intro l _; rfl)

/-- C10: the effective analyses set is always empty — the setter intersects
with the empty `AVAILABLE_ANALYSES` — and consequently (a) the inner loop of
`_censor_word` stops after the first candidate span (the whole token): its
result on a span list depends only on the first span; and (b) the known-clean
set is never written by `_censor_word`. -/
theorem c10_analyses_empty :
    (∀ v : List AnalysisType, analysesSetter v = []) ∧
    (∀ (cfg : Cfg) (orig : List Char) (prev : Word) (sp : Span) (rest : List Span)
       (cur : Word) (st : St), AnalysisType.deep ∉ cfg.analyses →
       innerLoop cfg orig prev (sp :: rest) [] none cur st =
         innerLoop cfg orig prev [sp] [] none cur st) ∧
    (∀ (cfg : Cfg) (st : St) (w : List Char) (res : Word) (st' : St),
       AnalysisType.deep ∉ cfg.analyses → StOk cfg st →
       censorWord cfg st w = .ok (some (res, st')) →
       st'.wordsWithNoProfanityInside = st.wordsWithNoProfanityInside) := by
  refine ⟨fun v => rfl, ?_, fun cfg st w res st' hdeep hok h => clean_eq_of_step hdeep hok h⟩
  intro cfg orig prev sp rest cur st hdeep
  cases hpart : censorWordPart cfg st sp.text with
  | error e =>
    rw [@innerLoop_step_error cfg orig prev sp rest cur st e hpart,
      @innerLoop_step_error cfg orig prev sp [] cur st e hpart]
  | ok pr =>
    obtain ⟨ccp, flag, st₂⟩ := pr
    rw [@innerLoop_step_ok cfg orig prev sp rest cur st st₂ ccp flag hdeep hpart,
      @innerLoop_step_ok cfg orig prev sp [] cur st st₂ ccp flag hdeep hpart]

/-- C10 witness: censoring `fuck` leaves the known-clean set unchanged. -/
theorem c10_analyses_empty_witness :
    demoSt1.wordsWithNoProfanityInside = emptySt.wordsWithNoProfanityInside :=
  c10_analyses_empty.2.2 demoCfg emptySt ['f','u','c','k'] demoMask demoSt1 (by decide)
    (by intro e he; cases he) (by rfl)
